import Mathlib

/-!
Shallow embedding of the `codehakase/md` terminal markdown renderer.

Strings are modelled as `List Char`. The functions below are translated
from the Go sources: `internal/renderer/styles.go` (whitespace post-processing,
indentation), `internal/theme/theme.go` (color schemes and style roles),
`internal/highlighter/highlighter.go` (language normalization and the
highlight fallback), and the terminal renderer (the per-node render functions
and the depth-first walker over the parsed document tree).
-/

abbrev Str := List Char

def str (s : String) : Str := s.toList

/-- Character class trimmed by `strings.TrimRight(line, " \t")`. -/
def isWS (c : Char) : Bool := c = ' ' || c = '\t'

/-- Character class of Go `unicode.IsSpace` on the Latin-1 range (space, tab,
newline, vertical tab, form feed, carriage return, next line, no-break space),
used by `strings.TrimSpace`. -/
def isSpaceChar (c : Char) : Bool :=
  c.toNat = 32 || c.toNat = 9 || c.toNat = 10 || c.toNat = 11 || c.toNat = 12 ||
    c.toNat = 13 || c.toNat = 133 || c.toNat = 160

/-- `strings.TrimRight` with a character-class predicate. -/
def trimRightBy (p : Char → Bool) (l : Str) : Str := (l.reverse.dropWhile p).reverse

/-- `strings.TrimRight(line, " \t")`. -/
def trimRightWS (l : Str) : Str := trimRightBy isWS l

/-- `strings.TrimRight(text, "\n")`. -/
def dropNLright (l : Str) : Str := trimRightBy (fun c => c = '\n') l

/-- `strings.TrimSpace`. -/
def goTrimSpace (l : Str) : Str := trimRightBy isSpaceChar (l.dropWhile isSpaceChar)

/-- `strings.Split(s, "\n")`. -/
def splitOnNL : Str → List Str
  | [] => [[]]
  | c :: rest =>
    if c = '\n' then [] :: splitOnNL rest
    else (c :: (splitOnNL rest).headI) :: (splitOnNL rest).tail

/-- `strings.Join(ls, "\n")`. -/
def joinNL : List Str → Str
  | [] => []
  | [l] => l
  | l :: ls => l ++ '\n' :: joinNL ls

/-- `TrimTrailingWhitespace` from `internal/renderer/styles.go`: splits on
newlines, right-trims each line of spaces and tabs, joins back. -/
def TrimTrailingWhitespace (s : Str) : Str := joinNL ((splitOnNL s).map trimRightWS)

/-- `EnsureTrailingNewline` from `internal/renderer/styles.go`: strips all
trailing newlines and appends exactly one. -/
def EnsureTrailingNewline (s : Str) : Str := dropNLright s ++ ['\n']

/-- The post-processing applied by `RenderContent` to the traversal buffer. -/
def postProcess (s : Str) : Str := EnsureTrailingNewline (TrimTrailingWhitespace s)

/-- `strings.Repeat`. -/
def repeatStr (s : Str) : Nat → Str
  | 0 => []
  | n + 1 => s ++ repeatStr s n

/-- `Indent` from `internal/renderer/styles.go`: prefixes each line whose
`TrimSpace` is nonempty with `level` two-space units. -/
def Indent (text : Str) (level : Nat) : Str :=
  if level = 0 then text
  else
    joinNL ((splitOnNL text).map (fun line =>
      if goTrimSpace line ≠ [] then repeatStr (str "  ") level ++ line else line))

/- ### Lemmas about splitting and joining on newlines -/

theorem splitOnNL_ne_nil (s : Str) : splitOnNL s ≠ [] := by
  cases s with
  | nil => simp [splitOnNL]
  | cons c rest =>
    simp only [splitOnNL]
    split <;> simp

theorem splitOnNL_eq_cons (s : Str) : ∃ h t, splitOnNL s = h :: t := by
  cases hq : splitOnNL s with
  | nil => exact absurd hq (splitOnNL_ne_nil s)
  | cons h t => exact ⟨h, t, rfl⟩

theorem joinNL_cons_of_ne_nil (x : Str) {ls : List Str} (h : ls ≠ []) :
    joinNL (x :: ls) = x ++ '\n' :: joinNL ls := by
  cases ls with
  | nil => exact absurd rfl h
  | cons a t => rfl

theorem joinNL_splitOnNL (s : Str) : joinNL (splitOnNL s) = s := by
  induction s with
  | nil => rfl
  | cons c rest ih =>
    obtain ⟨h, t, hsp⟩ := splitOnNL_eq_cons rest
    rw [splitOnNL]
    by_cases hc : c = '\n'
    · rw [if_pos hc, joinNL_cons_of_ne_nil _ (splitOnNL_ne_nil rest), ih, hc]
      rfl
    · rw [if_neg hc, hsp]
      simp only [List.headI_cons, List.tail_cons]
      cases t with
      | nil =>
        have hh : h = rest := by
          rw [hsp] at ih; simpa [joinNL] using ih
        simp [joinNL, hh]
      | cons b t2 =>
        rw [hsp] at ih
        have step : joinNL ((c :: h) :: b :: t2) = (c :: h) ++ '\n' :: joinNL (b :: t2) := rfl
        have step2 : joinNL (h :: b :: t2) = h ++ '\n' :: joinNL (b :: t2) := rfl
        rw [step]
        rw [step2] at ih
        rw [← ih]
        rfl

theorem mem_splitOnNL_no_nl {s : Str} {l : Str} (hl : l ∈ splitOnNL s) : '\n' ∉ l := by
  induction s generalizing l with
  | nil =>
    simp [splitOnNL] at hl
    simp [hl]
  | cons c rest ih =>
    obtain ⟨h, t, hsp⟩ := splitOnNL_eq_cons rest
    rw [splitOnNL] at hl
    by_cases hc : c = '\n'
    · rw [if_pos hc] at hl
      rcases List.mem_cons.mp hl with h1 | h1
      · simp [h1]
      · exact ih h1
    · rw [if_neg hc, hsp] at hl
      simp only [List.headI_cons, List.tail_cons] at hl
      have hmemh : h ∈ splitOnNL rest := by
        rw [hsp]; exact List.mem_cons_self _ _
      rcases List.mem_cons.mp hl with h1 | h1
      · subst h1
        intro hmem
        rcases List.mem_cons.mp hmem with h2 | h2
        · exact hc h2.symm
        · exact ih hmemh h2
      · refine ih (l := l) ?_
        rw [hsp]
        exact List.mem_cons_of_mem _ h1

theorem splitOnNL_no_nl_self {x : Str} (hx : '\n' ∉ x) : splitOnNL x = [x] := by
  induction x with
  | nil => rfl
  | cons c rest ih =>
    have hc : ¬ c = '\n' := by
      intro h; exact hx (by simp [h])
    have hrest : '\n' ∉ rest := fun h => hx (List.mem_cons_of_mem _ h)
    simp only [splitOnNL, if_neg hc, ih hrest]
    rfl

theorem splitOnNL_append_cons {x : Str} (hx : '\n' ∉ x) (y : Str) :
    splitOnNL (x ++ '\n' :: y) = x :: splitOnNL y := by
  induction x with
  | nil => simp [splitOnNL]
  | cons c rest ih =>
    have hc : ¬ c = '\n' := by
      intro h; exact hx (by simp [h])
    have hrest : '\n' ∉ rest := fun h => hx (List.mem_cons_of_mem _ h)
    show splitOnNL (c :: (rest ++ '\n' :: y)) = (c :: rest) :: splitOnNL y
    rw [splitOnNL, if_neg hc, ih hrest]
    rfl

theorem splitOnNL_append_nl (u : Str) : splitOnNL (u ++ ['\n']) = splitOnNL u ++ [[]] := by
  induction u with
  | nil => simp [splitOnNL]
  | cons c rest ih =>
    obtain ⟨h, t, hsp⟩ := splitOnNL_eq_cons rest
    by_cases hc : c = '\n'
    · have l1 : splitOnNL (c :: (rest ++ ['\n'])) = [] :: splitOnNL (rest ++ ['\n']) := by
        rw [splitOnNL, if_pos hc]
      have l2 : splitOnNL (c :: rest) = [] :: splitOnNL rest := by
        rw [splitOnNL, if_pos hc]
      show splitOnNL (c :: (rest ++ ['\n'])) = splitOnNL (c :: rest) ++ [[]]
      rw [l1, l2, ih]
      rfl
    · have l1 : splitOnNL (c :: (rest ++ ['\n']))
          = (c :: (splitOnNL (rest ++ ['\n'])).headI) :: (splitOnNL (rest ++ ['\n'])).tail := by
        rw [splitOnNL, if_neg hc]
      have l2 : splitOnNL (c :: rest)
          = (c :: (splitOnNL rest).headI) :: (splitOnNL rest).tail := by
        rw [splitOnNL, if_neg hc]
      show splitOnNL (c :: (rest ++ ['\n'])) = splitOnNL (c :: rest) ++ [[]]
      rw [l1, l2, ih, hsp]
      rfl

theorem splitOnNL_append_replicate (u : Str) (k : Nat) :
    splitOnNL (u ++ List.replicate k '\n') = splitOnNL u ++ List.replicate k [] := by
  induction k generalizing u with
  | zero => simp
  | succ n ih =>
    have h1 : u ++ List.replicate (n + 1) '\n' = (u ++ ['\n']) ++ List.replicate n '\n' := by
      simp [List.replicate_succ]
    rw [h1, ih, splitOnNL_append_nl]
    simp [List.replicate_succ]

theorem splitOnNL_joinNL {ls : List Str} (h0 : ls ≠ []) (h1 : ∀ l ∈ ls, '\n' ∉ l) :
    splitOnNL (joinNL ls) = ls := by
  induction ls with
  | nil => exact absurd rfl h0
  | cons x t ih =>
    cases t with
    | nil =>
      simp only [joinNL]
      exact splitOnNL_no_nl_self (h1 x (by simp))
    | cons b t2 =>
      rw [joinNL_cons_of_ne_nil _ (by simp)]
      rw [splitOnNL_append_cons (h1 x (by simp))]
      rw [ih (by simp) (fun l hl => h1 l (List.mem_cons_of_mem _ hl))]

/- ### Lemmas about right trimming -/

theorem dropWhile_self (p : Char → Bool) (l : Str) :
    (l.dropWhile p).dropWhile p = l.dropWhile p := by
  induction l with
  | nil => rfl
  | cons c rest ih =>
    by_cases hc : p c
    · simp [List.dropWhile_cons, hc, ih]
    · simp [List.dropWhile_cons, hc]

theorem head?_dropWhile (p : Char → Bool) (l : Str) {c : Char}
    (h : (l.dropWhile p).head? = some c) : p c = false := by
  induction l with
  | nil => simp at h
  | cons a rest ih =>
    by_cases ha : p a
    · rw [List.dropWhile_cons_of_pos ha] at h
      exact ih h
    · rw [List.dropWhile_cons_of_neg ha] at h
      simp at h
      rw [← h]
      simpa using ha

theorem trimRightBy_idem (p : Char → Bool) (l : Str) :
    trimRightBy p (trimRightBy p l) = trimRightBy p l := by
  simp [trimRightBy, dropWhile_self]

theorem trimRightBy_eq_append (p : Char → Bool) (l : Str) :
    ∃ rem, l = trimRightBy p l ++ rem ∧ ∀ c ∈ rem, p c = true := by
  refine ⟨(l.reverse.takeWhile p).reverse, ?_, ?_⟩
  · have h1 : List.takeWhile p l.reverse ++ List.dropWhile p l.reverse = l.reverse :=
      List.takeWhile_append_dropWhile p l.reverse
    have h2 := congrArg List.reverse h1
    rw [List.reverse_append, List.reverse_reverse] at h2
    exact h2.symm
  · intro c hc
    exact List.mem_takeWhile_imp (List.mem_reverse.mp hc)

theorem getLast?_trimRightBy (p : Char → Bool) (l : Str) {c : Char}
    (h : (trimRightBy p l).getLast? = some c) : p c = false := by
  rw [trimRightBy, List.getLast?_reverse] at h
  exact head?_dropWhile p l.reverse h

theorem trimRightBy_eq_self {p : Char → Bool} {l : Str}
    (h : ∀ c, l.getLast? = some c → p c = false) : trimRightBy p l = l := by
  cases hr : l.reverse with
  | nil =>
    have : l = [] := by simpa using congrArg List.reverse hr
    simp [this, trimRightBy]
  | cons d t =>
    have hd : l.getLast? = some d := by
      rw [← List.head?_reverse, hr]; rfl
    have hpd : p d = false := h d hd
    have : l.reverse.dropWhile p = l.reverse := by
      rw [hr, List.dropWhile_cons_of_neg (by simp [hpd])]
    simp [trimRightBy, this]

theorem trimRightBy_append_single {p : Char → Bool} {a : Char} (ha : p a = true) (u : Str) :
    trimRightBy p (u ++ [a]) = trimRightBy p u := by
  simp [trimRightBy, List.dropWhile_cons, ha]

theorem trimRightBy_front (p : Char → Bool) (l : Str) : trimRightBy p l <+: l := by
  obtain ⟨rem, hrem, -⟩ := trimRightBy_eq_append p l
  exact ⟨rem, hrem.symm⟩

theorem mem_trimRightBy {p : Char → Bool} {l : Str} {c : Char}
    (h : c ∈ trimRightBy p l) : c ∈ l :=
  (trimRightBy_front p l).subset h

/- ### Lemmas about the post-processing pipeline -/

theorem map_trimRightWS_splitOnNL_ne_nil (s : Str) :
    (splitOnNL s).map trimRightWS ≠ [] := by
  obtain ⟨h, t, hsp⟩ := splitOnNL_eq_cons s
  simp [hsp]

theorem no_nl_trimRightWS {l : Str} (h : '\n' ∉ l) : '\n' ∉ trimRightWS l :=
  fun hc => h (mem_trimRightBy hc)

theorem splitOnNL_TrimTrailingWhitespace (s : Str) :
    splitOnNL (TrimTrailingWhitespace s) = (splitOnNL s).map trimRightWS := by
  unfold TrimTrailingWhitespace
  apply splitOnNL_joinNL (map_trimRightWS_splitOnNL_ne_nil s)
  intro l hl
  obtain ⟨l0, hl0, rfl⟩ := List.mem_map.mp hl
  exact no_nl_trimRightWS (mem_splitOnNL_no_nl hl0)

theorem TrimTrailingWhitespace_eq_self {t : Str}
    (h : ∀ l ∈ splitOnNL t, trimRightWS l = l) : TrimTrailingWhitespace t = t := by
  unfold TrimTrailingWhitespace
  have hmap : (splitOnNL t).map trimRightWS = splitOnNL t := by
    calc (splitOnNL t).map trimRightWS = (splitOnNL t).map id := List.map_congr_left h
    _ = splitOnNL t := List.map_id _
  rw [hmap, joinNL_splitOnNL]

theorem mem_splitOnNL_dropNLright {t : Str} {l : Str}
    (h : l ∈ splitOnNL (dropNLright t)) : l ∈ splitOnNL t := by
  obtain ⟨rem, hrem, hall⟩ := trimRightBy_eq_append (fun c => c = '\n') t
  have hrep : rem = List.replicate rem.length '\n' :=
    List.eq_replicate_of_mem (fun c hc => by simpa using hall c hc)
  have : splitOnNL t = splitOnNL (dropNLright t) ++ List.replicate rem.length [] := by
    conv_lhs => rw [hrem, hrep]
    exact splitOnNL_append_replicate _ _
  rw [this]
  exact List.mem_append_left _ h

theorem lines_postProcess_trimmed (s : Str) :
    ∀ l ∈ splitOnNL (postProcess s), trimRightWS l = l := by
  intro l hl
  unfold postProcess EnsureTrailingNewline at hl
  rw [splitOnNL_append_nl] at hl
  rcases List.mem_append.mp hl with h1 | h1
  · have h2 : l ∈ splitOnNL (TrimTrailingWhitespace s) := mem_splitOnNL_dropNLright h1
    rw [splitOnNL_TrimTrailingWhitespace] at h2
    obtain ⟨l0, _, rfl⟩ := List.mem_map.mp h2
    exact trimRightBy_idem isWS l0
  · simp at h1
    simp [h1]
    rfl

theorem postProcess_eq_append (s : Str) :
    ∃ u, postProcess s = u ++ ['\n'] ∧ u.getLast? ≠ some '\n' := by
  refine ⟨dropNLright (TrimTrailingWhitespace s), rfl, ?_⟩
  intro hc
  have := getLast?_trimRightBy (fun c => c = '\n') (TrimTrailingWhitespace s) hc
  simp at this

theorem postProcess_empty : postProcess [] = ['\n'] := by decide

theorem postProcess_idem (s : Str) : postProcess (postProcess s) = postProcess s := by
  set u := dropNLright (TrimTrailingWhitespace s) with hu
  have hpost : postProcess s = u ++ ['\n'] := rfl
  have htrim : TrimTrailingWhitespace (u ++ ['\n']) = u ++ ['\n'] := by
    apply TrimTrailingWhitespace_eq_self
    intro l hl
    rw [splitOnNL_append_nl] at hl
    rcases List.mem_append.mp hl with h1 | h1
    · have h2 : l ∈ splitOnNL (TrimTrailingWhitespace s) := mem_splitOnNL_dropNLright h1
      rw [splitOnNL_TrimTrailingWhitespace] at h2
      obtain ⟨l0, _, rfl⟩ := List.mem_map.mp h2
      exact trimRightBy_idem isWS l0
    · simp at h1
      simp [h1]
      rfl
  have hdrop : dropNLright (u ++ ['\n']) = u := by
    rw [dropNLright, trimRightBy_append_single (by simp)]
    exact trimRightBy_idem _ _
  rw [hpost]
  unfold postProcess
  rw [htrim]
  unfold EnsureTrailingNewline
  rw [hdrop]

/- ### Theme manager (`internal/theme/theme.go`) -/

/-- Detected terminal background type. -/
inductive Bg
  | light
  | dark
  | unknown
deriving DecidableEq

/-- The style roles (`ColorKey` constants in `internal/theme/theme.go`). -/
inductive ColorKey
  | header1
  | header2
  | header3
  | header4
  | header5
  | header6
  | bold
  | italic
  | strikethrough
  | code
  | blockQuote
  | link
  | bulletPoint
  | orderedList
  | tableHeader
  | tableBorder
  | reset
deriving DecidableEq

/-- `buildDarkColorScheme`. -/
def darkScheme : ColorKey → Str
  | .header1 => str "\x1b[1;96m"
  | .header2 => str "\x1b[1;94m"
  | .header3 => str "\x1b[1;95m"
  | .header4 => str "\x1b[1;93m"
  | .header5 => str "\x1b[1;92m"
  | .header6 => str "\x1b[1;91m"
  | .bold => str "\x1b[1m"
  | .italic => str "\x1b[3m"
  | .strikethrough => str "\x1b[9m"
  | .code => str "\x1b[38;5;208m"
  | .blockQuote => str "\x1b[38;5;244m"
  | .link => str "\x1b[4;94m"
  | .bulletPoint => str "\x1b[1;97m"
  | .orderedList => str "\x1b[1;97m"
  | .tableHeader => str "\x1b[1;97m"
  | .tableBorder => str "\x1b[38;5;244m"
  | .reset => str "\x1b[0m"

/-- `buildLightColorScheme`. -/
def lightScheme : ColorKey → Str
  | .header1 => str "\x1b[1;34m"
  | .header2 => str "\x1b[1;36m"
  | .header3 => str "\x1b[1;35m"
  | .header4 => str "\x1b[1;33m"
  | .header5 => str "\x1b[1;32m"
  | .header6 => str "\x1b[1;31m"
  | .bold => str "\x1b[1m"
  | .italic => str "\x1b[3m"
  | .strikethrough => str "\x1b[9m"
  | .code => str "\x1b[38;5;166m"
  | .blockQuote => str "\x1b[38;5;240m"
  | .link => str "\x1b[4;34m"
  | .bulletPoint => str "\x1b[1;30m"
  | .orderedList => str "\x1b[1;30m"
  | .tableHeader => str "\x1b[1;30m"
  | .tableBorder => str "\x1b[38;5;240m"
  | .reset => str "\x1b[0m"

/-- `buildColorScheme`: light backgrounds get the light scheme, dark and
unknown backgrounds get the dark scheme. -/
def buildColorScheme : Bg → ColorKey → Str
  | .light => lightScheme
  | .dark => darkScheme
  | .unknown => darkScheme

/-- `ThemeManager.GetColor` (the scheme map holds every key, so the
missing-key fallback of the Go map lookup is never taken). -/
def GetColor (bg : Bg) (k : ColorKey) : Str := buildColorScheme bg k

/-- `ThemeManager.Style`: color, text, reset. -/
def styleStr (bg : Bg) (t : Str) (k : ColorKey) : Str :=
  GetColor bg k ++ t ++ GetColor bg .reset

/-- `ThemeManager.StyleNoReset`: color, text. -/
def styleNoReset (bg : Bg) (t : Str) (k : ColorKey) : Str := GetColor bg k ++ t

/-- `ThemeManager.Reset`. -/
def resetSeq (bg : Bg) : Str := GetColor bg .reset

/- ### Highlighter (`internal/highlighter/highlighter.go`) -/

/-- ASCII branch of Go `strings.ToLower` on a single character. -/
def toLowerChar (c : Char) : Char :=
  if 65 ≤ c.toNat ∧ c.toNat ≤ 90 then Char.ofNat (c.toNat + 32) else c

/-- `strings.ToLower` (ASCII case mapping). -/
def mapLower (s : Str) : Str := s.map toLowerChar

/-- The alias rows of the `switch` inside `normalizeLanguage`: each row lists
the hints of one `case` and the name that case returns (the "xml", "html"
case returns the matched hint itself, so it appears as two identity rows). -/
def aliasTable : List (List Str × Str) :=
  [([str "js", str "javascript"], str "javascript"),
    ([str "ts", str "typescript"], str "typescript"),
    ([str "py", str "python"], str "python"),
    ([str "rb", str "ruby"], str "ruby"),
    ([str "sh", str "bash", str "shell"], str "bash"),
    ([str "yml", str "yaml"], str "yaml"),
    ([str "json"], str "json"),
    ([str "xml"], str "xml"),
    ([str "html"], str "html"),
    ([str "css"], str "css"),
    ([str "sql"], str "sql"),
    ([str "go", str "golang"], str "go"),
    ([str "rust", str "rs"], str "rust"),
    ([str "c"], str "c"),
    ([str "cpp", str "c++", str "cxx"], str "cpp"),
    ([str "java"], str "java"),
    ([str "php"], str "php"),
    ([str "swift"], str "swift"),
    ([str "kotlin", str "kt"], str "kotlin"),
    ([str "scala"], str "scala"),
    ([str "r"], str "r"),
    ([str "matlab"], str "matlab"),
    ([str "perl"], str "perl"),
    ([str "lua"], str "lua"),
    ([str "vim"], str "vim"),
    ([str "dockerfile", str "docker"], str "dockerfile"),
    ([str "makefile", str "make"], str "makefile"),
    ([str "diff"], str "diff"),
    ([str "plain", str "text", str "txt"], str "text")]

/-- The `switch lang` of `normalizeLanguage`: the first matching case wins
(the cases are disjoint), and the `default` returns the hint unchanged. -/
def canonMap (lang : Str) : Str :=
  match aliasTable.find? (fun row => lang ∈ row.1) with
  | some row => row.2
  | none => lang

/-- `normalizeLanguage`: empty hints pass through; otherwise the hint is
trimmed, lowercased, and run through the alias switch. -/
def normalizeLanguage (language : Str) : Str :=
  if language = [] then language
  else canonMap (mapLower (goTrimSpace language))

/-- `Highlighter.Highlight`: whitespace-only code is returned unchanged;
otherwise the chroma helper is consulted and a failure falls back to the
plain `Code` style with a nil error. -/
def Highlight (bg : Bg) (chromaHi : Str → Str → Except Str Str)
    (code language : Str) : Except Str Str :=
  if goTrimSpace code = [] then .ok code
  else
    match chromaHi code (normalizeLanguage language) with
    | .error _ => .ok (styleStr bg code .code)
    | .ok h => .ok h

/-- `Highlighter.HighlightInlineCode`. -/
def HighlightInlineCode (bg : Bg) (code : Str) : Str := styleStr bg code .code

/- ### Lemmas about lowercasing and trimming -/

theorem charOfNat_toNat_lower : ∀ k, k < 26 → (Char.ofNat (97 + k)).toNat = 97 + k := by decide

theorem toLowerChar_toNat_of_upper {c : Char} (h : 65 ≤ c.toNat ∧ c.toNat ≤ 90) :
    (toLowerChar c).toNat = c.toNat + 32 := by
  unfold toLowerChar
  rw [if_pos h]
  have hk : c.toNat + 32 = 97 + (c.toNat - 65) := by omega
  rw [hk]
  exact charOfNat_toNat_lower _ (by omega)

theorem toLowerChar_not_upper (c : Char) :
    ¬(65 ≤ (toLowerChar c).toNat ∧ (toLowerChar c).toNat ≤ 90) := by
  by_cases h : 65 ≤ c.toNat ∧ c.toNat ≤ 90
  · rw [toLowerChar_toNat_of_upper h]
    omega
  · unfold toLowerChar
    rw [if_neg h]
    exact h

theorem toLowerChar_idem (c : Char) : toLowerChar (toLowerChar c) = toLowerChar c := by
  have h := toLowerChar_not_upper c
  show (if 65 ≤ (toLowerChar c).toNat ∧ (toLowerChar c).toNat ≤ 90
      then Char.ofNat ((toLowerChar c).toNat + 32) else toLowerChar c) = toLowerChar c
  rw [if_neg h]

theorem isSpaceChar_toLowerChar (c : Char) : isSpaceChar (toLowerChar c) = isSpaceChar c := by
  by_cases h : 65 ≤ c.toNat ∧ c.toNat ≤ 90
  · have h1 : (toLowerChar c).toNat = c.toNat + 32 := toLowerChar_toNat_of_upper h
    have l : isSpaceChar (toLowerChar c) = false := by
      simp only [isSpaceChar, h1, Bool.or_eq_false_iff, decide_eq_false_iff_not]
      omega
    have r : isSpaceChar c = false := by
      simp only [isSpaceChar, Bool.or_eq_false_iff, decide_eq_false_iff_not]
      omega
    rw [l, r]
  · unfold toLowerChar
    rw [if_neg h]

theorem mapLower_idem (s : Str) : mapLower (mapLower s) = mapLower s := by
  unfold mapLower
  rw [List.map_map]
  apply List.map_congr_left
  intro a _
  exact toLowerChar_idem a

theorem dropWhile_map_eq (f : Char → Char) (p : Char → Bool)
    (hp : ∀ c, p (f c) = p c) (l : Str) :
    (l.map f).dropWhile p = (l.dropWhile p).map f := by
  induction l with
  | nil => rfl
  | cons c rest ih =>
    cases hc : p c with
    | true => simp [List.map_cons, List.dropWhile_cons, hp c, hc, ih]
    | false => simp [List.map_cons, List.dropWhile_cons, hp c, hc]

theorem trimRightBy_map_eq (f : Char → Char) (p : Char → Bool)
    (hp : ∀ c, p (f c) = p c) (l : Str) :
    trimRightBy p (l.map f) = (trimRightBy p l).map f := by
  unfold trimRightBy
  rw [← List.map_reverse, dropWhile_map_eq f p hp, List.map_reverse]

theorem goTrimSpace_mapLower (t : Str) :
    goTrimSpace (mapLower t) = mapLower (goTrimSpace t) := by
  unfold goTrimSpace mapLower
  rw [dropWhile_map_eq _ _ isSpaceChar_toLowerChar,
    trimRightBy_map_eq _ _ isSpaceChar_toLowerChar]

theorem head?_goTrimSpace {t : Str} {c : Char} (h : (goTrimSpace t).head? = some c) :
    isSpaceChar c = false := by
  unfold goTrimSpace at h
  obtain ⟨rem, hrem, -⟩ := trimRightBy_eq_append isSpaceChar (t.dropWhile isSpaceChar)
  have hu : (t.dropWhile isSpaceChar).head? = some c := by
    rw [hrem, List.head?_append, h]
    rfl
  exact head?_dropWhile isSpaceChar t hu

theorem dropWhile_goTrimSpace (t : Str) :
    (goTrimSpace t).dropWhile isSpaceChar = goTrimSpace t := by
  cases hgc : goTrimSpace t with
  | nil => rfl
  | cons d td =>
    have hd : isSpaceChar d = false := by
      apply head?_goTrimSpace (t := t)
      rw [hgc]
      rfl
    rw [List.dropWhile_cons_of_neg (by simp [hd])]

theorem goTrimSpace_idem (t : Str) : goTrimSpace (goTrimSpace t) = goTrimSpace t := by
  conv_lhs => rw [goTrimSpace, dropWhile_goTrimSpace]
  show trimRightBy isSpaceChar (trimRightBy isSpaceChar (t.dropWhile isSpaceChar))
      = goTrimSpace t
  rw [trimRightBy_idem]
  rfl

theorem goTrimSpace_all_space {code : Str} (h : ∀ c ∈ code, isSpaceChar c = true) :
    goTrimSpace code = [] := by
  unfold goTrimSpace
  have : code.dropWhile isSpaceChar = [] := List.dropWhile_eq_nil_iff.mpr h
  rw [this]
  rfl

/- ### The terminal renderer -/

/-- Ancestor information the render functions consult: whether an ancestor is
a `CodeSpan`, a `List` (with its ordered flag), or a table header row. -/
inductive Anc
  | codeSpanA
  | listA (ordered : Bool)
  | tableHeaderA
  | otherA
deriving DecidableEq

/-- Number of `List` ancestors (the loop in `renderListItem` that walks the
parent chain counting `*ast.List` nodes). -/
def countLists : List Anc → Nat
  | [] => 0
  | .listA _ :: r => countLists r + 1
  | _ :: r => countLists r + 0

/-- `n.Parent()` is a `*ast.CodeSpan` (checked by `renderText`). -/
def parentIsCodeSpan (anc : List Anc) : Bool :=
  match anc.head? with
  | some .codeSpanA => true
  | _ => false

/-- `node.Parent().Kind().String() == "TableHeader"` (checked by
`renderTableCell`). -/
def parentIsTableHeader (anc : List Anc) : Bool :=
  match anc.head? with
  | some .tableHeaderA => true
  | _ => false

/-- The ordered flag of the immediate parent when it is a `*ast.List`
(checked by `renderListItem`). -/
def parentListOrdered (anc : List Anc) : Option Bool :=
  match anc.head? with
  | some (.listA o) => some o
  | _ => none

/-- The abstract `CodeHighlighter` interface consumed by the renderer. -/
structure CodeHighlighter where
  highlight : Str → Str → Except Str Str
  highlightInline : Str → Str

/-- The `ColorKey` chosen by the `switch n.Level` in `renderHeading`
(levels 1 through 5 explicitly, everything else falls to `Header6`). -/
def headingKey (lvl : Nat) : ColorKey :=
  if lvl = 1 then .header1
  else if lvl = 2 then .header2
  else if lvl = 3 then .header3
  else if lvl = 4 then .header4
  else if lvl = 5 then .header5
  else .header6

/-- The textual marker chosen by the same `switch n.Level`. -/
def headingMarker (lvl : Nat) : Str :=
  if lvl = 1 then str "# "
  else if lvl = 2 then str "## "
  else if lvl = 3 then str "### "
  else if lvl = 4 then str "#### "
  else if lvl = 5 then str "##### "
  else str "###### "

/-- `renderHeading`: on enter, a newline when a previous sibling exists, then
the styled (no-reset) marker; on exit, reset and newline. -/
def renderHeading (bg : Bg) (lvl : Nat) (hasPrev : Bool) (entering : Bool) : Str :=
  if entering then
    (if hasPrev then ['\n'] else []) ++ styleNoReset bg (headingMarker lvl) (headingKey lvl)
  else resetSeq bg ++ ['\n']

/-- `renderParagraph`: on exit, a newline, and a second one when a following
sibling exists. -/
def renderParagraph (hasNext : Bool) (entering : Bool) : Str :=
  if entering then [] else '\n' :: (if hasNext then ['\n'] else [])

/-- The `for i, line` loop of `renderText` for the lines after the first:
each separator is a newline when the node records a hard break, or when the
line is the last one and the node records a soft break; otherwise a space. -/
def textJoinTail (hard soft : Bool) : List Str → Str
  | [] => []
  | [l] => (if hard || soft then ['\n'] else [' ']) ++ l
  | l :: ls => (if hard then ['\n'] else [' ']) ++ l ++ textJoinTail hard soft ls

/-- `renderText`: suppressed inside a `CodeSpan`; raw segments are emitted
verbatim; otherwise the segment is split on newlines and re-joined. -/
def renderText (anc : List Anc) (content : Str) (raw hard soft : Bool)
    (entering : Bool) : Str :=
  if entering then
    if parentIsCodeSpan anc then []
    else if raw then content
    else
      match splitOnNL content with
      | [] => []
      | l :: ls => l ++ textJoinTail hard soft ls
  else []

/-- `renderEmphasis`: level 2 gets `Bold`, anything else `Italic`; reset on
exit. -/
def renderEmphasis (bg : Bg) (lvl : Nat) (entering : Bool) : Str :=
  if entering then (if lvl = 2 then GetColor bg .bold else GetColor bg .italic)
  else resetSeq bg

/-- `renderCodeSpan`: inline-highlighted text on enter, nothing on exit. -/
def renderCodeSpan (hl : CodeHighlighter) (content : Str) (entering : Bool) : Str :=
  if entering then hl.highlightInline content else []

/-- The language hint of a fenced block: the fence info text when present,
empty otherwise (`language := ""` followed by `n.Info` extraction). -/
def langOfInfo : Option Str → Str
  | some s => s
  | none => []

/-- `renderFencedCodeBlock` output: language from the fence info, highlight
with fallback to the plain `Code` style on error, then newline, indented
text with trailing newlines stripped, and two newlines. -/
def renderFencedCodeBlock (bg : Bg) (hl : CodeHighlighter) (info : Option Str)
    (code : Str) (entering : Bool) : Str :=
  if entering then
    let highlighted :=
      match hl.highlight code (langOfInfo info) with
      | .ok h => h
      | .error _ => styleStr bg code .code
    '\n' :: (Indent (dropNLright highlighted) 1 ++ ['\n', '\n'])
  else []

/-- `renderFencedCodeBlock` with its error result: the Go function returns
`nil` on every path, swallowing the highlighter's error. -/
def renderFencedCodeBlockE (bg : Bg) (hl : CodeHighlighter) (info : Option Str)
    (code : Str) (entering : Bool) : Except Str Str :=
  .ok (renderFencedCodeBlock bg hl info code entering)

/-- `renderCodeBlock`: like the fenced case but always plain `Code` style. -/
def renderCodeBlock (bg : Bg) (code : Str) (entering : Bool) : Str :=
  if entering then
    '\n' :: (Indent (dropNLright (styleStr bg code .code)) 1 ++ ['\n', '\n'])
  else []

/-- `renderBlockquote`: newline, quote color and marker on enter; reset and
two newlines on exit. -/
def renderBlockquote (bg : Bg) (entering : Bool) : Str :=
  if entering then '\n' :: (GetColor bg .blockQuote ++ str "│ ")
  else resetSeq bg ++ ['\n', '\n']

/-- `renderList`: blank line before when a previous sibling exists, blank
line after when a following sibling exists. -/
def renderList (hasPrev hasNext : Bool) (entering : Bool) : Str :=
  if entering then (if hasPrev then ['\n'] else [])
  else (if hasNext then ['\n'] else [])

/-- `renderListItem`: a non-breaking space, indentation from the list
nesting depth, a styled marker ("1." for ordered parents, a bullet
otherwise), and a space; newline on exit. -/
def renderListItem (bg : Bg) (anc : List Anc) (entering : Bool) : Str :=
  if entering then
    let level := countLists anc - 1
    let marker :=
      match parentListOrdered anc with
      | some true => styleStr bg (str "1.") .orderedList
      | some false => styleStr bg (str "•") .bulletPoint
      | none => styleStr bg (str "•") .bulletPoint
    '\xa0' :: (repeatStr (str "  ") level ++ marker ++ [' '])
  else ['\n']

/-- `renderLink`: link color on enter; destination in parentheses then reset
on exit. -/
def renderLink (bg : Bg) (dest : Str) (entering : Bool) : Str :=
  if entering then GetColor bg .link
  else str " (" ++ dest ++ str ")" ++ resetSeq bg

/-- `renderAutoLink`: the URL styled as a link, in one shot on enter. -/
def renderAutoLink (bg : Bg) (url : Str) (entering : Bool) : Str :=
  if entering then styleStr bg url .link else []

/-- `renderThematicBreak`: newline, a 50-glyph rule styled as a border, two
newlines. -/
def renderThematicBreak (bg : Bg) (entering : Bool) : Str :=
  if entering then
    '\n' :: (styleStr bg (repeatStr (str "─") 50) .tableBorder ++ ['\n', '\n'])
  else []

/-- `renderTable`: a newline on enter and on exit. -/
def renderTable (entering : Bool) : Str := if entering then ['\n'] else ['\n']

/-- `renderTableHeader`: emits nothing on either event. -/
def renderTableHeader (entering : Bool) : Str := []

/-- The separator loop body in `renderTableRow`: for each column a `├`, a
15-dash segment, and a `┼` for every column but the last. -/
def sepLine (cellCount : Nat) : Str :=
  ((List.range cellCount).map (fun i =>
    str "├" ++ repeatStr (str "─") 15 ++ (if i < cellCount - 1 then str "┼" else []))).join

/-- `renderTableRow`: border color and `│` on enter; reset and newline on
exit, followed — only when the node's kind string is "TableHeader" — by the
separator line capped with `┤`. -/
def renderTableRow (bg : Bg) (kind : Str) (cellCount : Nat) (entering : Bool) : Str :=
  if entering then GetColor bg .tableBorder ++ str "│"
  else
    resetSeq bg ++ ['\n'] ++
      (if kind = str "TableHeader" then
        GetColor bg .tableBorder ++ sepLine cellCount ++ str "┤" ++ resetSeq bg ++ ['\n']
      else [])

/-- `renderTableCell`: a space (plus the header style when the parent row is
a header) on enter; on exit, a reset for header cells, 14 spaces, and a
border-colored `│`. -/
def renderTableCell (bg : Bg) (parentHeader : Bool) (entering : Bool) : Str :=
  if entering then ' ' :: (if parentHeader then GetColor bg .tableHeader else [])
  else
    (if parentHeader then resetSeq bg else []) ++
      repeatStr (str " ") 14 ++ GetColor bg .tableBorder ++ str "│"

/-- `renderStrikethrough`: strike color on enter, reset on exit. -/
def renderStrikethrough (bg : Bg) (entering : Bool) : Str :=
  if entering then GetColor bg .strikethrough else resetSeq bg

/-- `renderTaskCheckBox`: a fixed unchecked box styled as a bullet plus a
space, on enter. -/
def renderTaskCheckBox (bg : Bg) (entering : Bool) : Str :=
  if entering then styleStr bg (str "[ ]") .bulletPoint ++ [' '] else []

/- ### The parsed document tree and the walker -/

mutual
/-- A node of the parsed tree, with the attributes each renderer reads. -/
inductive Node where
  | document (cs : NodeList)
  | heading (lvl : Nat) (cs : NodeList)
  | paragraph (cs : NodeList)
  | textN (content : Str) (raw hard soft : Bool)
  | emphasis (lvl : Nat) (cs : NodeList)
  | codeSpan (content : Str) (cs : NodeList)
  | fencedCodeBlock (info : Option Str) (code : Str)
  | codeBlock (code : Str)
  | blockquote (cs : NodeList)
  | listN (ordered : Bool) (cs : NodeList)
  | listItem (cs : NodeList)
  | linkN (dest : Str) (cs : NodeList)
  | autoLink (url : Str)
  | rawHTML
  | htmlBlock
  | thematicBreak
  | tableN (cs : NodeList)
  | tableHeader (cs : NodeList)
  | tableRow (cs : NodeList)
  | tableCell (cs : NodeList)
  | strikethroughN (cs : NodeList)
  | taskCheckBox
/-- A list of sibling nodes in document order. -/
inductive NodeList where
  | nil
  | cons (n : Node) (ns : NodeList)
end

/-- Whether a sibling list is nonempty (the "has next sibling" query). -/
def NodeList.notNil : NodeList → Bool
  | .nil => false
  | .cons _ _ => true

/-- Number of children (the cell-counting loop in `renderTableRow`). -/
def NodeList.len : NodeList → Nat
  | .nil => 0
  | .cons _ ns => ns.len + 1

/-- The ancestor record a node contributes for its children. -/
def ancOf : Node → Anc
  | .codeSpan _ _ => .codeSpanA
  | .listN o _ => .listA o
  | .tableHeader _ => .tableHeaderA
  | _ => .otherA

/-- The children of a node. -/
def childrenOf : Node → NodeList
  | .document cs => cs
  | .heading _ cs => cs
  | .paragraph cs => cs
  | .textN _ _ _ _ => .nil
  | .emphasis _ cs => cs
  | .codeSpan _ cs => cs
  | .fencedCodeBlock _ _ => .nil
  | .codeBlock _ => .nil
  | .blockquote cs => cs
  | .listN _ cs => cs
  | .listItem cs => cs
  | .linkN _ cs => cs
  | .autoLink _ => .nil
  | .rawHTML => .nil
  | .htmlBlock => .nil
  | .thematicBreak => .nil
  | .tableN cs => cs
  | .tableHeader cs => cs
  | .tableRow cs => cs
  | .tableCell cs => cs
  | .strikethroughN cs => cs
  | .taskCheckBox => .nil

/-- The `renderNode` dispatch: by node kind, to the renderer above.
`Document`, `RawHTML` and `HTMLBlock` emit nothing; `TableHeader` nodes go
to the no-op `renderTableHeader`, and only nodes of kind "TableRow" reach
`renderTableRow`. -/
def renderNodeEvent (bg : Bg) (hl : CodeHighlighter) (anc : List Anc)
    (hasPrev hasNext : Bool) (entering : Bool) : Node → Str
  | .document _ => []
  | .heading lvl _ => renderHeading bg lvl hasPrev entering
  | .paragraph _ => renderParagraph hasNext entering
  | .textN c r hb sb => renderText anc c r hb sb entering
  | .emphasis lvl _ => renderEmphasis bg lvl entering
  | .codeSpan c _ => renderCodeSpan hl c entering
  | .fencedCodeBlock info code => renderFencedCodeBlock bg hl info code entering
  | .codeBlock code => renderCodeBlock bg code entering
  | .blockquote _ => renderBlockquote bg entering
  | .listN _ _ => renderList hasPrev hasNext entering
  | .listItem _ => renderListItem bg anc entering
  | .linkN dest _ => renderLink bg dest entering
  | .autoLink url => renderAutoLink bg url entering
  | .rawHTML => []
  | .htmlBlock => []
  | .thematicBreak => renderThematicBreak bg entering
  | .tableN _ => renderTable entering
  | .tableHeader _ => renderTableHeader entering
  | .tableRow cs => renderTableRow bg (str "TableRow") cs.len entering
  | .tableCell _ => renderTableCell bg (parentIsTableHeader anc) entering
  | .strikethroughN _ => renderStrikethrough bg entering
  | .taskCheckBox => renderTaskCheckBox bg entering

set_option maxHeartbeats 2000000 in
mutual
/-- The depth-first walk (`ast.Walk`): entering event, children, exiting
event. -/
def walkNode (bg : Bg) (hl : CodeHighlighter) (anc : List Anc)
    (hp hn : Bool) : Node → Str
  | .document cs =>
    renderNodeEvent bg hl anc hp hn true (.document cs) ++
      walkList bg hl (.otherA :: anc) false cs ++
      renderNodeEvent bg hl anc hp hn false (.document cs)
  | .heading lvl cs =>
    renderNodeEvent bg hl anc hp hn true (.heading lvl cs) ++
      walkList bg hl (.otherA :: anc) false cs ++
      renderNodeEvent bg hl anc hp hn false (.heading lvl cs)
  | .paragraph cs =>
    renderNodeEvent bg hl anc hp hn true (.paragraph cs) ++
      walkList bg hl (.otherA :: anc) false cs ++
      renderNodeEvent bg hl anc hp hn false (.paragraph cs)
  | .textN c r hb sb =>
    renderNodeEvent bg hl anc hp hn true (.textN c r hb sb) ++
      renderNodeEvent bg hl anc hp hn false (.textN c r hb sb)
  | .emphasis lvl cs =>
    renderNodeEvent bg hl anc hp hn true (.emphasis lvl cs) ++
      walkList bg hl (.otherA :: anc) false cs ++
      renderNodeEvent bg hl anc hp hn false (.emphasis lvl cs)
  | .codeSpan c cs =>
    renderNodeEvent bg hl anc hp hn true (.codeSpan c cs) ++
      walkList bg hl (.codeSpanA :: anc) false cs ++
      renderNodeEvent bg hl anc hp hn false (.codeSpan c cs)
  | .fencedCodeBlock info code =>
    renderNodeEvent bg hl anc hp hn true (.fencedCodeBlock info code) ++
      renderNodeEvent bg hl anc hp hn false (.fencedCodeBlock info code)
  | .codeBlock code =>
    renderNodeEvent bg hl anc hp hn true (.codeBlock code) ++
      renderNodeEvent bg hl anc hp hn false (.codeBlock code)
  | .blockquote cs =>
    renderNodeEvent bg hl anc hp hn true (.blockquote cs) ++
      walkList bg hl (.otherA :: anc) false cs ++
      renderNodeEvent bg hl anc hp hn false (.blockquote cs)
  | .listN o cs =>
    renderNodeEvent bg hl anc hp hn true (.listN o cs) ++
      walkList bg hl (.listA o :: anc) false cs ++
      renderNodeEvent bg hl anc hp hn false (.listN o cs)
  | .listItem cs =>
    renderNodeEvent bg hl anc hp hn true (.listItem cs) ++
      walkList bg hl (.otherA :: anc) false cs ++
      renderNodeEvent bg hl anc hp hn false (.listItem cs)
  | .linkN dest cs =>
    renderNodeEvent bg hl anc hp hn true (.linkN dest cs) ++
      walkList bg hl (.otherA :: anc) false cs ++
      renderNodeEvent bg hl anc hp hn false (.linkN dest cs)
  | .autoLink url =>
    renderNodeEvent bg hl anc hp hn true (.autoLink url) ++
      renderNodeEvent bg hl anc hp hn false (.autoLink url)
  | .rawHTML =>
    renderNodeEvent bg hl anc hp hn true .rawHTML ++
      renderNodeEvent bg hl anc hp hn false .rawHTML
  | .htmlBlock =>
    renderNodeEvent bg hl anc hp hn true .htmlBlock ++
      renderNodeEvent bg hl anc hp hn false .htmlBlock
  | .thematicBreak =>
    renderNodeEvent bg hl anc hp hn true .thematicBreak ++
      renderNodeEvent bg hl anc hp hn false .thematicBreak
  | .tableN cs =>
    renderNodeEvent bg hl anc hp hn true (.tableN cs) ++
      walkList bg hl (.otherA :: anc) false cs ++
      renderNodeEvent bg hl anc hp hn false (.tableN cs)
  | .tableHeader cs =>
    renderNodeEvent bg hl anc hp hn true (.tableHeader cs) ++
      walkList bg hl (.tableHeaderA :: anc) false cs ++
      renderNodeEvent bg hl anc hp hn false (.tableHeader cs)
  | .tableRow cs =>
    renderNodeEvent bg hl anc hp hn true (.tableRow cs) ++
      walkList bg hl (.otherA :: anc) false cs ++
      renderNodeEvent bg hl anc hp hn false (.tableRow cs)
  | .tableCell cs =>
    renderNodeEvent bg hl anc hp hn true (.tableCell cs) ++
      walkList bg hl (.otherA :: anc) false cs ++
      renderNodeEvent bg hl anc hp hn false (.tableCell cs)
  | .strikethroughN cs =>
    renderNodeEvent bg hl anc hp hn true (.strikethroughN cs) ++
      walkList bg hl (.otherA :: anc) false cs ++
      renderNodeEvent bg hl anc hp hn false (.strikethroughN cs)
  | .taskCheckBox =>
    renderNodeEvent bg hl anc hp hn true .taskCheckBox ++
      renderNodeEvent bg hl anc hp hn false .taskCheckBox
/-- Walks a sibling list in document order, threading the previous/next
sibling flags. -/
def walkList (bg : Bg) (hl : CodeHighlighter) (anc : List Anc)
    (hp : Bool) : NodeList → Str
  | .nil => []
  | .cons n ns => walkNode bg hl anc hp ns.notNil n ++ walkList bg hl anc true ns
end

/-- `RenderContent`: parse (external), walk the tree into the buffer, then
trim trailing whitespace per line and ensure exactly one trailing newline.
Every render function returns a nil error, so the error path of the Go
function reduces to the buffer post-processing. -/
def RenderContent (bg : Bg) (hl : CodeHighlighter) (doc : Node) : Str :=
  postProcess (walkNode bg hl [] false false doc)

theorem walkNode_eq (bg : Bg) (hl : CodeHighlighter) (anc : List Anc)
    (hp hn : Bool) (n : Node) :
    walkNode bg hl anc hp hn n =
      renderNodeEvent bg hl anc hp hn true n ++
        walkList bg hl (ancOf n :: anc) false (childrenOf n) ++
        renderNodeEvent bg hl anc hp hn false n := by
  cases n <;> simp [walkNode, walkList, ancOf, childrenOf]

/- ### Helper facts for the claims -/

/-- Whether the second string starts with the first. -/
def strStarts : Str → Str → Bool
  | [], _ => true
  | _ :: _, [] => false
  | a :: p, b :: s => a = b && strStarts p s

/-- Whether the first string occurs as a contiguous substring of the second. -/
def strHasSub (p : Str) : Str → Bool
  | [] => p.isEmpty
  | c :: rest => strStarts p (c :: rest) || strHasSub p rest

theorem repeatStr_two_space (n : Nat) :
    repeatStr (str "  ") n = List.replicate (2 * n) ' ' := by
  induction n with
  | zero => rfl
  | succ k ih =>
    show str "  " ++ repeatStr (str "  ") k = _
    rw [ih, show 2 * (k + 1) = 2 + 2 * k by omega, List.replicate_add]
    rfl

theorem dropNLright_of_getLast_ne {u : Str}
    (h : ∀ c, u.getLast? = some c → c ≠ '\n') : dropNLright u = u :=
  trimRightBy_eq_self (fun c hc => by simpa using h c hc)

theorem GetColor_head (bg : Bg) (k : ColorKey) : ∃ t, GetColor bg k = '\x1b' :: t := by
  cases bg <;> cases k <;> exact ⟨_, rfl⟩

theorem getLast?_map (f : Char → Char) (l : Str) :
    (l.map f).getLast? = (l.getLast?).map f := by
  have h1 : l.map f = (l.reverse.map f).reverse := by
    rw [← List.map_reverse, List.reverse_reverse]
  rw [h1, List.getLast?_reverse, List.head?_map, List.head?_reverse]

/-- The canonical names produced by the alias switch. -/
def canonList : List Str :=
  [str "javascript", str "typescript", str "python", str "ruby", str "bash",
    str "yaml", str "json", str "xml", str "html", str "css", str "sql",
    str "go", str "rust", str "c", str "cpp", str "java", str "php",
    str "swift", str "kotlin", str "scala", str "r", str "matlab", str "perl",
    str "lua", str "vim", str "dockerfile", str "makefile", str "diff", str "text"]

theorem aliasTable_canonical : ∀ row ∈ aliasTable, row.2 ∈ canonList := by decide

theorem canonMap_cases (t : Str) : canonMap t = t ∨ canonMap t ∈ canonList := by
  unfold canonMap
  cases hfind : aliasTable.find? (fun row => t ∈ row.1) with
  | none => exact Or.inl rfl
  | some row =>
    exact Or.inr (aliasTable_canonical row (List.mem_of_find?_eq_some hfind))

theorem canonList_fixed :
    ∀ l ∈ canonList, goTrimSpace l = l ∧ mapLower l = l ∧ canonMap l = l := by decide

theorem canonList_not_upper :
    ∀ l ∈ canonList, ∀ c ∈ l, ¬(65 ≤ c.toNat ∧ c.toNat ≤ 90) := by decide

theorem mapLower_not_upper {t : Str} :
    ∀ c ∈ mapLower t, ¬(65 ≤ c.toNat ∧ c.toNat ≤ 90) := by
  intro c hc
  obtain ⟨c0, -, rfl⟩ := List.mem_map.mp hc
  exact toLowerChar_not_upper c0

theorem canonMap_empty : canonMap [] = [] := by decide

/-- Core fixed-point facts about `normalizeLanguage` results: they are fixed
by lowercasing, trimming, and the alias switch, and contain no ASCII
uppercase letter. -/
theorem normalizeLanguage_core (s : Str) :
    mapLower (normalizeLanguage s) = normalizeLanguage s ∧
    goTrimSpace (normalizeLanguage s) = normalizeLanguage s ∧
    canonMap (normalizeLanguage s) = normalizeLanguage s ∧
    (∀ c ∈ normalizeLanguage s, ¬(65 ≤ c.toNat ∧ c.toNat ≤ 90)) := by
  by_cases hs : s = []
  · subst hs
    refine ⟨rfl, rfl, canonMap_empty, ?_⟩
    intro c hc
    simp [normalizeLanguage] at hc
  · have hns : normalizeLanguage s = canonMap (mapLower (goTrimSpace s)) := by
      rw [normalizeLanguage, if_neg hs]
    rcases canonMap_cases (mapLower (goTrimSpace s)) with hcase | hcase
    · have hr : normalizeLanguage s = mapLower (goTrimSpace s) := by rw [hns, hcase]
      refine ⟨?_, ?_, ?_, ?_⟩
      · rw [hr, mapLower_idem]
      · rw [hr, goTrimSpace_mapLower, goTrimSpace_idem]
      · rw [hr]
        exact hcase
      · rw [hr]
        exact mapLower_not_upper
    · have hr : normalizeLanguage s ∈ canonList := by rw [hns]; exact hcase
      obtain ⟨ht, hlw, hcm⟩ := canonList_fixed _ hr
      exact ⟨hlw, ht, hcm, canonList_not_upper _ hr⟩

/- ### Example inputs -/

/-- A highlighter whose `Highlight` always fails (inline highlighting uses
the plain code style, as the real implementation does). -/
def hl0 : CodeHighlighter :=
  { highlight := fun _ _ => Except.error (str "boom"),
    highlightInline := fun s => styleStr Bg.dark s ColorKey.code }

/-- The parsed tree of a table with header cells "A", "B" and one body row
with cells "1", "2". -/
def exTableDoc : Node :=
  .document (.cons
    (.tableN (.cons
      (.tableHeader (.cons (.tableCell (.cons (.textN (str "A") false false false) .nil))
        (.cons (.tableCell (.cons (.textN (str "B") false false false) .nil)) .nil)))
      (.cons (.tableRow (.cons (.tableCell (.cons (.textN (str "1") false false false) .nil))
        (.cons (.tableCell (.cons (.textN (str "2") false false false) .nil)) .nil))) .nil)))
    .nil)

/-- The parsed tree of two adjacent top-level paragraphs "A" and "B". -/
def exDocAB : Node :=
  .document (.cons (.paragraph (.cons (.textN (str "A") false false false) .nil))
    (.cons (.paragraph (.cons (.textN (str "B") false false false) .nil)) .nil))

theorem renderTableRow_body_exit (bg : Bg) (m : Nat) :
    renderTableRow bg (str "TableRow") m false = resetSeq bg ++ ['\n'] := by
  show resetSeq bg ++ ['\n'] ++
      (if str "TableRow" = str "TableHeader" then
        GetColor bg .tableBorder ++ sepLine m ++ str "┤" ++ resetSeq bg ++ ['\n']
      else []) = resetSeq bg ++ ['\n']
  rw [if_neg (by decide)]
  simp

/- ### The claims -/

/-- Claim C1: the spec says a rendered table whose first row is a header row
shows the header cells followed by exactly one separator line (with
column-count minus one cross glyphs). On the code this fails: the dispatch
in `renderNode` sends nodes of kind "TableHeader" to the no-op
`renderTableHeader`, so the header branch of `renderTableRow` is
unreachable and the rendered table contains no cross glyph at all — while
`renderTableRow`, had it received the header row, would have drawn it. -/
theorem c1_no_separator_emitted :
    ¬('┼' ∈ RenderContent Bg.dark hl0 exTableDoc) ∧
      '┼' ∈ renderTableRow Bg.dark (str "TableHeader") 2 false :=
  ⟨by decide, by decide⟩

/-- Claim C2: for every document and highlighter the rendered output has no
trailing space or tab on any line (each line is fixed by the per-line right
trim), ends with exactly one newline, and the empty document renders to a
single newline. -/
theorem c2_rendered_output_whitespace (bg : Bg) (hl : CodeHighlighter) (doc : Node) :
    (∀ l ∈ splitOnNL (RenderContent bg hl doc), trimRightWS l = l) ∧
    (∀ l ∈ splitOnNL (RenderContent bg hl doc),
      l.getLast? ≠ some ' ' ∧ l.getLast? ≠ some '\t') ∧
    (∃ u, RenderContent bg hl doc = u ++ ['\n'] ∧ u.getLast? ≠ some '\n') ∧
    RenderContent bg hl (Node.document NodeList.nil) = ['\n'] := by
  refine ⟨?_, ?_, ?_, ?_⟩
  · intro l hl2
    exact lines_postProcess_trimmed _ l hl2
  · intro l hl2
    have hfix : trimRightBy isWS l = l := lines_postProcess_trimmed _ l hl2
    constructor
    · intro hlast
      have := getLast?_trimRightBy isWS l (by rw [hfix]; exact hlast)
      simp [isWS] at this
    · intro hlast
      have := getLast?_trimRightBy isWS l (by rw [hfix]; exact hlast)
      simp [isWS] at this
  · exact postProcess_eq_append _
  · rfl

/-- Witness for C2 at a concrete document. -/
theorem c2_witness :
    (∀ l ∈ splitOnNL (RenderContent Bg.dark hl0 exDocAB), trimRightWS l = l) ∧
    (∀ l ∈ splitOnNL (RenderContent Bg.dark hl0 exDocAB),
      l.getLast? ≠ some ' ' ∧ l.getLast? ≠ some '\t') ∧
    (∃ u, RenderContent Bg.dark hl0 exDocAB = u ++ ['\n'] ∧ u.getLast? ≠ some '\n') ∧
    RenderContent Bg.dark hl0 (Node.document NodeList.nil) = ['\n'] :=
  c2_rendered_output_whitespace Bg.dark hl0 exDocAB

/-- Claim C3: rendering a fenced code block never returns an error for any
highlighter, language hint and code string; when the delegated `Highlight`
call fails, the block is emitted with the plain `Code` style applied to the
raw text instead. -/
theorem c3_fenced_code_never_errors (bg : Bg) (hl : CodeHighlighter)
    (info : Option Str) (code : Str) (entering : Bool) :
    (∃ out, renderFencedCodeBlockE bg hl info code entering = Except.ok out) ∧
    ((∃ e, hl.highlight code (langOfInfo info) = Except.error e) →
      renderFencedCodeBlockE bg hl info code true =
        Except.ok ('\n' :: (Indent (dropNLright (styleStr bg code ColorKey.code)) 1 ++
          ['\n', '\n']))) := by
  constructor
  · exact ⟨_, rfl⟩
  · rintro ⟨e, he⟩
    have hstep : renderFencedCodeBlock bg hl info code true =
        '\n' :: (Indent (dropNLright (match hl.highlight code (langOfInfo info) with
          | .ok h => h
          | .error _ => styleStr bg code ColorKey.code)) 1 ++ ['\n', '\n']) := rfl
    rw [renderFencedCodeBlockE, hstep, he]

/-- Witness for C3 with an always-failing highlighter. -/
theorem c3_witness :
    (∃ e, hl0.highlight (str "x=1") (langOfInfo (some (str "foo"))) = Except.error e) ∧
    renderFencedCodeBlockE Bg.dark hl0 (some (str "foo")) (str "x=1") true =
      Except.ok ('\n' :: (Indent (dropNLright (styleStr Bg.dark (str "x=1") ColorKey.code)) 1 ++
        ['\n', '\n'])) :=
  ⟨⟨str "boom", rfl⟩,
    (c3_fenced_code_never_errors Bg.dark hl0 (some (str "foo")) (str "x=1") true).2
      ⟨str "boom", rfl⟩⟩

/-- Counterexample to C4 as stated: at list depth 1 the claim says the item
emission is exactly the styled bullet and a space with nothing before it,
but the code emits a non-breaking space first. -/
theorem c4_counterexample :
    renderListItem Bg.dark [Anc.listA false] true ≠
      styleStr Bg.dark (str "•") ColorKey.bulletPoint ++ [' '] := by decide

/-- Claim C4 (amended): on entering a `ListItem` whose parent is a list, the
renderer emits a non-breaking space, then (depth − 1) two-space units of
indentation, then the styled marker ("1." if the parent list is ordered, a
bullet otherwise), then a single space; on exit it emits a newline. -/
theorem c4_list_item_amended (bg : Bg) (ord : Bool) (rest : List Anc) :
    renderListItem bg (Anc.listA ord :: rest) true =
      '\xa0' :: (List.replicate (2 * (countLists (Anc.listA ord :: rest) - 1)) ' ' ++
        (if ord then styleStr bg (str "1.") ColorKey.orderedList
          else styleStr bg (str "•") ColorKey.bulletPoint) ++ [' ']) ∧
    (∀ anc : List Anc, renderListItem bg anc false = ['\n']) := by
  constructor
  · cases ord <;>
      simp [renderListItem, parentListOrdered, repeatStr_two_space, countLists]
  · intro anc
    rfl

/-- Claim C5: a heading's enter emission is a blank line exactly when a
previous sibling exists, followed by the level's styled prefix; the six
levels map to six distinct roles, any level of 7 or more is clamped to the
weakest role, and the exit emission is a reset and a newline. -/
theorem c5_heading_contract (bg : Bg) (lvl : Nat) (hasPrev : Bool) :
    renderHeading bg lvl hasPrev true =
      (if hasPrev then ['\n'] else []) ++ (GetColor bg (headingKey lvl) ++ headingMarker lvl) ∧
    renderHeading bg lvl hasPrev false = resetSeq bg ++ ['\n'] ∧
    ([1, 2, 3, 4, 5, 6].map headingKey).Nodup ∧
    (∀ k : Nat, headingKey (k + 7) = ColorKey.header6) ∧
    (∃ t, GetColor bg (headingKey lvl) = '\x1b' :: t) := by
  refine ⟨rfl, rfl, by decide, ?_, GetColor_head bg (headingKey lvl)⟩
  intro k
  unfold headingKey
  split_ifs <;> first | omega | rfl

/-- Claim C6: every style-applying enter emission (headings, emphasis,
strikethrough, links, blockquotes, table rows, header table cells) is
matched by a reset in the corresponding exit emission, with no re-application
of the entering style after the reset, and the walker emits a node's exit
event before any following sibling's output. -/
theorem c6_balanced_styling (bg : Bg) (hl : CodeHighlighter) (anc : List Anc)
    (hp hn : Bool) (lvl : Nat) (dest : Str) (m : Nat) (n : Node) (ns : NodeList) :
    renderEmphasis bg lvl true =
      (if lvl = 2 then GetColor bg ColorKey.bold else GetColor bg ColorKey.italic) ∧
    renderStrikethrough bg true = GetColor bg ColorKey.strikethrough ∧
    renderLink bg dest true = GetColor bg ColorKey.link ∧
    renderBlockquote bg true = '\n' :: (GetColor bg ColorKey.blockQuote ++ str "│ ") ∧
    renderTableRow bg (str "TableRow") m true = GetColor bg ColorKey.tableBorder ++ str "│" ∧
    renderTableCell bg true true = ' ' :: GetColor bg ColorKey.tableHeader ∧
    renderHeading bg lvl hp true =
      (if hp then ['\n'] else []) ++ (GetColor bg (headingKey lvl) ++ headingMarker lvl) ∧
    renderHeading bg lvl hp false = resetSeq bg ++ ['\n'] ∧
    renderEmphasis bg lvl false = resetSeq bg ∧
    renderStrikethrough bg false = resetSeq bg ∧
    renderLink bg dest false = (str " (" ++ dest ++ str ")") ++ resetSeq bg ∧
    renderBlockquote bg false = resetSeq bg ++ ['\n', '\n'] ∧
    renderTableRow bg (str "TableRow") m false = resetSeq bg ++ ['\n'] ∧
    renderTableCell bg true false =
      resetSeq bg ++ (repeatStr (str " ") 14 ++ (GetColor bg ColorKey.tableBorder ++ str "│")) ∧
    strHasSub (GetColor bg ColorKey.tableHeader)
      (repeatStr (str " ") 14 ++ (GetColor bg ColorKey.tableBorder ++ str "│")) = false ∧
    walkList bg hl anc hp (NodeList.cons n ns) =
      walkNode bg hl anc hp ns.notNil n ++ walkList bg hl anc true ns ∧
    walkNode bg hl anc hp hn n =
      renderNodeEvent bg hl anc hp hn true n ++
        walkList bg hl (ancOf n :: anc) false (childrenOf n) ++
        renderNodeEvent bg hl anc hp hn false n := by
  refine ⟨rfl, rfl, rfl, rfl, rfl, rfl, rfl, rfl, rfl, rfl, rfl, rfl,
    renderTableRow_body_exit bg m, ?_, ?_, rfl, walkNode_eq bg hl anc hp hn n⟩
  · simp [renderTableCell, List.append_assoc]
  · cases bg <;> decide

/-- Claim C7: two adjacent top-level paragraphs with single-line, rightmost
whitespace-free texts render with exactly one blank line between them, no
blank line before the first or after the last, and one trailing newline. -/
theorem c7_two_paragraphs (bg : Bg) (hl : CodeHighlighter) (a b : Str)
    (ha : a ≠ []) (hb : b ≠ []) (hna : '\n' ∉ a) (hnb : '\n' ∉ b)
    (hta : trimRightWS a = a) (htb : trimRightWS b = b) :
    RenderContent bg hl
      (.document (.cons (.paragraph (.cons (.textN a false false false) .nil))
        (.cons (.paragraph (.cons (.textN b false false false) .nil)) .nil))) =
      a ++ '\n' :: '\n' :: (b ++ ['\n']) ∧
    splitOnNL (RenderContent bg hl
      (.document (.cons (.paragraph (.cons (.textN a false false false) .nil))
        (.cons (.paragraph (.cons (.textN b false false false) .nil)) .nil)))) =
      [a, [], b, []] := by
  have hbuf : walkNode bg hl [] false false
      (.document (.cons (.paragraph (.cons (.textN a false false false) .nil))
        (.cons (.paragraph (.cons (.textN b false false false) .nil)) .nil))) =
      a ++ '\n' :: '\n' :: (b ++ ['\n']) := by
    simp [walkNode, walkList, renderNodeEvent, renderParagraph, renderText,
      parentIsCodeSpan, NodeList.notNil, splitOnNL_no_nl_self hna,
      splitOnNL_no_nl_self hnb, textJoinTail]
  have hlines : splitOnNL (a ++ '\n' :: '\n' :: (b ++ ['\n'])) = [a, [], b, []] := by
    rw [splitOnNL_append_cons hna, splitOnNL, if_pos rfl, splitOnNL_append_nl,
      splitOnNL_no_nl_self hnb]
    rfl
  have htrim : TrimTrailingWhitespace (a ++ '\n' :: '\n' :: (b ++ ['\n'])) =
      a ++ '\n' :: '\n' :: (b ++ ['\n']) := by
    apply TrimTrailingWhitespace_eq_self
    rw [hlines]
    intro l hl2
    simp only [List.mem_cons, List.not_mem_nil, or_false] at hl2
    rcases hl2 with rfl | rfl | rfl | rfl
    · exact hta
    · rfl
    · exact htb
    · rfl
  have hlast : ∀ c, (a ++ '\n' :: '\n' :: b).getLast? = some c → c ≠ '\n' := by
    intro c hc
    have h1 : (a ++ '\n' :: '\n' :: b).getLast? = b.getLast? := by
      rw [show a ++ '\n' :: '\n' :: b = (a ++ ['\n', '\n']) ++ b by simp]
      exact List.getLast?_append_of_ne_nil _ hb
    rw [h1] at hc
    have hmem : c ∈ b := List.mem_of_mem_getLast? hc
    intro hcnl
    subst hcnl
    exact hnb hmem
  have hens : EnsureTrailingNewline (a ++ '\n' :: '\n' :: (b ++ ['\n'])) =
      a ++ '\n' :: '\n' :: (b ++ ['\n']) := by
    have hsplit : a ++ '\n' :: '\n' :: (b ++ ['\n']) = (a ++ '\n' :: '\n' :: b) ++ ['\n'] := by
      simp
    have hdrop : dropNLright ((a ++ '\n' :: '\n' :: b) ++ ['\n']) = a ++ '\n' :: '\n' :: b := by
      unfold dropNLright
      rw [trimRightBy_append_single (by simp)]
      exact trimRightBy_eq_self (fun c hc => by simpa using hlast c hc)
    rw [hsplit]
    unfold EnsureTrailingNewline
    rw [hdrop]
  have hrc : RenderContent bg hl
      (.document (.cons (.paragraph (.cons (.textN a false false false) .nil))
        (.cons (.paragraph (.cons (.textN b false false false) .nil)) .nil))) =
      a ++ '\n' :: '\n' :: (b ++ ['\n']) := by
    unfold RenderContent postProcess
    rw [hbuf, htrim, hens]
  refine ⟨hrc, ?_⟩
  rw [hrc]
  exact hlines

/-- Witness for C7 at the texts "A" and "B". -/
theorem c7_witness :
    RenderContent Bg.dark hl0 exDocAB = str "A\n\nB\n" ∧
    splitOnNL (RenderContent Bg.dark hl0 exDocAB) = [str "A", [], str "B", []] := by
  have h := c7_two_paragraphs Bg.dark hl0 (str "A") (str "B") (by decide) (by decide)
    (by decide) (by decide) (by decide) (by decide)
  constructor
  · show RenderContent Bg.dark hl0
      (.document (.cons (.paragraph (.cons (.textN (str "A") false false false) .nil))
        (.cons (.paragraph (.cons (.textN (str "B") false false false) .nil)) .nil))) =
      str "A\n\nB\n"
    rw [h.1]
    decide
  · show splitOnNL (RenderContent Bg.dark hl0
      (.document (.cons (.paragraph (.cons (.textN (str "A") false false false) .nil))
        (.cons (.paragraph (.cons (.textN (str "B") false false false) .nil)) .nil)))) =
      [str "A", [], str "B", []]
    exact h.2

/-- Claim C8: the post-processing step (per-line right trim, then exactly one
trailing newline) is idempotent. -/
theorem c8_postprocess_idempotent (s : Str) :
    EnsureTrailingNewline (TrimTrailingWhitespace
        (EnsureTrailingNewline (TrimTrailingWhitespace s))) =
      EnsureTrailingNewline (TrimTrailingWhitespace s) :=
  postProcess_idem s

/-- Claim C9: for any language hint and any whitespace-only code string,
`Highlight` returns the code unchanged with no error, without consulting
the chroma helper. -/
theorem c9_whitespace_code_unchanged (bg : Bg)
    (chromaHi : Str → Str → Except Str Str) (code language : Str)
    (h : ∀ c ∈ code, isSpaceChar c = true) :
    Highlight bg chromaHi code language = Except.ok code := by
  unfold Highlight
  rw [if_pos (goTrimSpace_all_space h)]

/-- Witness for C9 at a space-and-tab code string and a failing chroma. -/
theorem c9_witness :
    (∀ c ∈ [' ', '\t'], isSpaceChar c = true) ∧
    Highlight Bg.dark (fun _ _ => Except.error (str "e")) [' ', '\t'] (str "go") =
      Except.ok [' ', '\t'] :=
  ⟨by decide, c9_whitespace_code_unchanged Bg.dark (fun _ _ => Except.error (str "e"))
    [' ', '\t'] (str "go") (by decide)⟩

/-- Claim C10: `normalizeLanguage` is idempotent, its result is fixed by
lowercasing and trimming (so it has no ASCII uppercase letter and no
leading or trailing whitespace), and the empty string maps to itself. -/
theorem c10_normalize_language_contract (s : Str) :
    normalizeLanguage (normalizeLanguage s) = normalizeLanguage s ∧
    mapLower (normalizeLanguage s) = normalizeLanguage s ∧
    goTrimSpace (normalizeLanguage s) = normalizeLanguage s ∧
    (∀ c ∈ normalizeLanguage s, ¬(65 ≤ c.toNat ∧ c.toNat ≤ 90)) ∧
    normalizeLanguage [] = [] := by
  obtain ⟨hlw, ht, hcm, hup⟩ := normalizeLanguage_core s
  refine ⟨?_, hlw, ht, hup, rfl⟩
  by_cases hz : normalizeLanguage s = []
  · rw [hz]
    rfl
  · rw [normalizeLanguage, if_neg hz, ht, hlw, hcm]

/-- Witness for C10 at the hint " Py ". -/
theorem c10_witness :
    normalizeLanguage (normalizeLanguage (str " Py ")) = normalizeLanguage (str " Py ") ∧
    mapLower (normalizeLanguage (str " Py ")) = normalizeLanguage (str " Py ") ∧
    goTrimSpace (normalizeLanguage (str " Py ")) = normalizeLanguage (str " Py ") ∧
    (∀ c ∈ normalizeLanguage (str " Py "), ¬(65 ≤ c.toNat ∧ c.toNat ≤ 90)) ∧
    normalizeLanguage [] = [] :=
  c10_normalize_language_contract (str " Py ")
